import Mathlib

/-!
# UART receive interrupt handler driving an LED pin

Shallow embedding of `Homework01.cydsn/InterruptRputines.c`.

The file holds one global, `uint8 ch_received`, and one handler, `Custom_ISR`.  The handler
calls two peripheral drivers that are generated by the vendor tool chain: `UART_GetChar`
and `Pin_LED_Write`.  The machine state is made explicit:

* `pin`         : the logic level of the LED pin,
* `ch_received` : the global of the C file,
* `uart`        : the state of the UART peripheral, of an arbitrary type `U`,
* `calls`       : a ghost log of the driver calls made so far, oldest first.

What a read of the UART returns is left to a parameter `drv : U → Nat × U`, so every
theorem holds for every behaviour of the peripheral.  `fifoGetChar` is one concrete
peripheral, used to evaluate the handler on concrete inputs.

Character codes: `'s'` = 115, `'S'` = 83, `'b'` = 98, `'B'` = 66, `'x'` = 120.
-/

namespace LedIsr

/-- One call of the handler into a peripheral driver: the byte a UART read returned, or
the value handed to the pin driver. -/
inductive Call where
  | UART_GetChar (ret : Nat)
  | Pin_LED_Write (value : Nat)
  deriving DecidableEq

/-- Machine state seen by the handler. -/
structure State (U : Type) where
  pin : Nat
  ch_received : Nat
  uart : U
  calls : List Call

/-- Modelled from the spec: the UART driver's "get received character" operation, whose
body is vendor code outside the C file.  It returns one byte (`uint8`, hence `% 256`) and
moves the peripheral to its next state; both are given by `drv`.  The call is logged. -/
def UART_GetChar {U : Type} (drv : U → Nat × U) (s : State U) : Nat × State U :=
  let r := drv s.uart
  (r.1 % 256, { s with uart := r.2, calls := s.calls ++ [Call.UART_GetChar (r.1 % 256)] })

/-- Modelled from the spec: the GPIO driver's "write logic level" operation, whose body is
vendor code outside the C file.  The pin takes the level written.  The call is logged. -/
def Pin_LED_Write {U : Type} (value : Nat) (s : State U) : State U :=
  { s with pin := value, calls := s.calls ++ [Call.Pin_LED_Write value] }

/-- The handler `CY_ISR(Custom_ISR)`: store the byte read in `ch_received`, then switch on
it.  Cases `'s'` (115) and `'S'` (83) write 0, cases `'b'` (98) and `'B'` (66) write 1, the
default case does nothing. -/
def Custom_ISR {U : Type} (drv : U → Nat × U) (s : State U) : State U :=
  let r := UART_GetChar drv s
  let s1 : State U := { r.2 with ch_received := r.1 }
  match s1.ch_received with
  | 115 => Pin_LED_Write 0 s1
  | 83 => Pin_LED_Write 0 s1
  | 98 => Pin_LED_Write 1 s1
  | 66 => Pin_LED_Write 1 s1
  | _ => s1

/-- The handler invoked `n` times in succession. -/
def invoke {U : Type} (drv : U → Nat × U) : Nat → State U → State U
  | 0, s => s
  | n + 1, s => invoke drv n (Custom_ISR drv s)

/-- The bytes that `n` successive reads of the UART return, oldest first. -/
def received {U : Type} (drv : U → Nat × U) : Nat → U → List Nat
  | 0, _ => []
  | n + 1, u => (drv u).1 % 256 :: received drv n (drv u).2

/-- The driver calls made by one invocation of the handler from state `s`: what the
invocation appended to the log. -/
def callsOf {U : Type} (drv : U → Nat × U) (s : State U) : List Call :=
  (Custom_ISR drv s).calls.drop s.calls.length

/-- Modelled from the spec: a UART whose receive buffer is a queue of pending bytes.  A
read returns the oldest pending byte and removes it; a read of an empty buffer returns 0. -/
def fifoGetChar : List Nat → Nat × List Nat
  | [] => (0, [])
  | b :: rest => (b, rest)

/-- The four command bytes of the switch: `'s'`, `'S'`, `'b'`, `'B'`. -/
def recognized (c : Nat) : Bool :=
  c == 115 || c == 83 || c == 98 || c == 66

/-- The last command byte of a sequence, if it has one. -/
def lastRecognized (bs : List Nat) : Option Nat :=
  (bs.filter recognized).getLast?

/-- Pin level after one received byte `c`, from level `p`. -/
def stepPin (p c : Nat) : Nat :=
  if c = 115 ∨ c = 83 then 0 else if c = 98 ∨ c = 66 then 1 else p

/-- Is the call a read of the UART? -/
def isGetChar : Call → Bool
  | Call.UART_GetChar _ => true
  | Call.Pin_LED_Write _ => false

/-- Is the call a write of the LED pin? -/
def isPinWrite : Call → Bool
  | Call.UART_GetChar _ => false
  | Call.Pin_LED_Write _ => true

/-- States reachable from `s0` by invocations of the handler; between two invocations the
UART peripheral may move to any state (bytes arrive). -/
inductive Reachable {U : Type} (drv : U → Nat × U) (s0 : State U) : State U → Prop where
  | init : Reachable drv s0 s0
  | isr (s : State U) : Reachable drv s0 s → Reachable drv s0 (Custom_ISR drv s)
  | arrive (s : State U) (u : U) : Reachable drv s0 s → Reachable drv s0 { s with uart := u }

/-! ## Basic facts -/

theorem char_codes :
    's'.toNat = 115 ∧ 'S'.toNat = 83 ∧ 'b'.toNat = 98 ∧ 'B'.toNat = 66 ∧ 'x'.toNat = 120 := by
  decide

theorem Custom_ISR_pin {U : Type} (drv : U → Nat × U) (s : State U) :
    (Custom_ISR drv s).pin = stepPin s.pin ((drv s.uart).1 % 256) := by
  simp only [Custom_ISR, UART_GetChar, stepPin]
  split <;> simp_all [Pin_LED_Write]

theorem Custom_ISR_ch_received {U : Type} (drv : U → Nat × U) (s : State U) :
    (Custom_ISR drv s).ch_received = (drv s.uart).1 % 256 := by
  simp only [Custom_ISR, UART_GetChar]
  split <;> simp_all [Pin_LED_Write]

theorem Custom_ISR_uart {U : Type} (drv : U → Nat × U) (s : State U) :
    (Custom_ISR drv s).uart = (drv s.uart).2 := by
  simp only [Custom_ISR, UART_GetChar]
  split <;> simp_all [Pin_LED_Write]

theorem Custom_ISR_calls {U : Type} (drv : U → Nat × U) (s : State U) :
    (Custom_ISR drv s).calls =
      s.calls ++ Call.UART_GetChar ((drv s.uart).1 % 256) ::
        (if (drv s.uart).1 % 256 = 115 ∨ (drv s.uart).1 % 256 = 83 then [Call.Pin_LED_Write 0]
         else if (drv s.uart).1 % 256 = 98 ∨ (drv s.uart).1 % 256 = 66 then
           [Call.Pin_LED_Write 1]
         else []) := by
  simp only [Custom_ISR, UART_GetChar]
  split <;> simp_all [Pin_LED_Write]

theorem callsOf_eq {U : Type} (drv : U → Nat × U) (s : State U) :
    callsOf drv s =
      Call.UART_GetChar ((drv s.uart).1 % 256) ::
        (if (drv s.uart).1 % 256 = 115 ∨ (drv s.uart).1 % 256 = 83 then [Call.Pin_LED_Write 0]
         else if (drv s.uart).1 % 256 = 98 ∨ (drv s.uart).1 % 256 = 66 then
           [Call.Pin_LED_Write 1]
         else []) := by
  simp [callsOf, Custom_ISR_calls]

theorem UART_GetChar_fst {U : Type} (drv : U → Nat × U) (s : State U) :
    (UART_GetChar drv s).1 = (drv s.uart).1 % 256 := rfl

theorem UART_GetChar_lt {U : Type} (drv : U → Nat × U) (s : State U) :
    (UART_GetChar drv s).1 < 256 := by
  rw [UART_GetChar_fst]
  omega

theorem Custom_ISR_fifoGetChar_pending (p old b : Nat) (rest : List Nat) (log : List Call) :
    (Custom_ISR fifoGetChar ⟨p, old, b :: rest, log⟩).uart = rest ∧
    (Custom_ISR fifoGetChar ⟨p, old, b :: rest, log⟩).ch_received = b % 256 := by
  rw [Custom_ISR_uart, Custom_ISR_ch_received]
  exact ⟨rfl, rfl⟩

theorem Custom_ISR_fifoGetChar_empty (p old : Nat) (log : List Call) :
    (Custom_ISR fifoGetChar ⟨p, old, [], log⟩).uart = [] ∧
    (Custom_ISR fifoGetChar ⟨p, old, [], log⟩).ch_received = 0 ∧
    (Custom_ISR fifoGetChar ⟨p, old, [], log⟩).pin = p := by
  rw [Custom_ISR_uart, Custom_ISR_ch_received, Custom_ISR_pin]
  exact ⟨rfl, rfl, rfl⟩

theorem invoke_pin {U : Type} (drv : U → Nat × U) (n : Nat) (s : State U) :
    (invoke drv n s).pin = (received drv n s.uart).foldl stepPin s.pin := by
  induction n generalizing s with
  | zero => rfl
  | succ n ih =>
    rw [invoke, ih, Custom_ISR_pin, Custom_ISR_uart, received, List.foldl_cons]

theorem stepPin_of_not_recognized (p c : Nat) (h : recognized c = false) :
    stepPin p c = p := by
  simp only [recognized, Bool.or_eq_false_iff, beq_eq_false_iff_ne] at h
  rw [stepPin, if_neg (by omega), if_neg (by omega)]

theorem foldl_stepPin_filter (bs : List Nat) (p : Nat) :
    (bs.filter recognized).foldl stepPin p = bs.foldl stepPin p := by
  induction bs generalizing p with
  | nil => rfl
  | cons b bs ih =>
    cases hb : recognized b
    · rw [List.filter_cons_of_neg (by simp [hb]), List.foldl_cons,
        stepPin_of_not_recognized p b hb, ih]
    · rw [List.filter_cons_of_pos hb, List.foldl_cons, List.foldl_cons, ih]

theorem lastRecognized_concat (bs : List Nat) (c : Nat) :
    lastRecognized (bs ++ [c]) = if recognized c = true then some c else lastRecognized bs := by
  unfold lastRecognized
  cases hc : recognized c
  · simp [List.filter_append, hc]
  · simp [List.filter_append, hc]

theorem lastRecognized_eq_none_iff (bs : List Nat) :
    lastRecognized bs = none ↔ ∀ b ∈ bs, recognized b = false := by
  unfold lastRecognized
  rw [List.getLast?_eq_none_iff, List.filter_eq_nil_iff]
  simp

theorem foldl_stepPin_cases (bs : List Nat) (p : Nat) :
    (lastRecognized bs = none ∧ bs.foldl stepPin p = p) ∨
    (∃ c, lastRecognized bs = some c ∧ (c = 115 ∨ c = 83) ∧ bs.foldl stepPin p = 0) ∨
    (∃ c, lastRecognized bs = some c ∧ (c = 98 ∨ c = 66) ∧ bs.foldl stepPin p = 1) := by
  induction bs using List.reverseRecOn with
  | nil => exact Or.inl ⟨rfl, rfl⟩
  | append_singleton bs c ih =>
    rw [List.foldl_append, List.foldl_cons, List.foldl_nil, lastRecognized_concat]
    by_cases h1 : c = 115 ∨ c = 83
    · refine Or.inr (Or.inl ⟨c, ?_, h1, ?_⟩)
      · rcases h1 with rfl | rfl <;> rfl
      · rw [stepPin, if_pos h1]
    · by_cases h2 : c = 98 ∨ c = 66
      · refine Or.inr (Or.inr ⟨c, ?_, h2, ?_⟩)
        · rcases h2 with rfl | rfl <;> rfl
        · rw [stepPin, if_neg h1, if_pos h2]
      · have h3 : recognized c = false := by
          simp only [recognized, Bool.or_eq_false_iff, beq_eq_false_iff_ne]
          omega
        rw [h3, stepPin_of_not_recognized _ c h3]
        simpa using ih

theorem received_fifoGetChar (bs : List Nat) (h : ∀ b ∈ bs, b < 256) :
    received fifoGetChar bs.length bs = bs := by
  induction bs with
  | nil => rfl
  | cons b bs ih =>
    have hb : b < 256 := h b (List.mem_cons_self b bs)
    rw [List.length_cons, received]
    simp only [fifoGetChar]
    rw [Nat.mod_eq_of_lt hb, ih (fun x hx => h x (List.mem_cons_of_mem b hx))]

/-! ## One invocation -/

/-- C1: whatever the pin level and `ch_received` were, if the byte returned by
`UART_GetChar` is `'s'` (115) or `'S'` (83), the LED pin level is 0 after one invocation
of `Custom_ISR`. -/
theorem C1_stop_byte_sets_pin_low {U : Type} (drv : U → Nat × U) (s : State U)
    (h : (UART_GetChar drv s).1 = 115 ∨ (UART_GetChar drv s).1 = 83) :
    (Custom_ISR drv s).pin = 0 := by
  rw [UART_GetChar_fst] at h
  rw [Custom_ISR_pin, stepPin, if_pos h]

theorem C1_stop_byte_sets_pin_low_witness :
    (Custom_ISR fifoGetChar ⟨1, 98, [83], []⟩).pin = 0 :=
  C1_stop_byte_sets_pin_low fifoGetChar ⟨1, 98, [83], []⟩ (by decide)

/-- C2: whatever the pin level and `ch_received` were, if the byte returned by
`UART_GetChar` is `'b'` (98) or `'B'` (66), the LED pin level is 1 after one invocation
of `Custom_ISR`. -/
theorem C2_begin_byte_sets_pin_high {U : Type} (drv : U → Nat × U) (s : State U)
    (h : (UART_GetChar drv s).1 = 98 ∨ (UART_GetChar drv s).1 = 66) :
    (Custom_ISR drv s).pin = 1 := by
  rw [UART_GetChar_fst] at h
  rw [Custom_ISR_pin, stepPin, if_neg (by omega), if_pos h]

theorem C2_begin_byte_sets_pin_high_witness :
    (Custom_ISR fifoGetChar ⟨0, 115, [98], []⟩).pin = 1 :=
  C2_begin_byte_sets_pin_high fifoGetChar ⟨0, 115, [98], []⟩ (by decide)

/-- C3: if the byte returned by `UART_GetChar` (a value below 256, 0 included) is none of
`'s'`, `'S'`, `'b'`, `'B'`, one invocation of `Custom_ISR` makes no call of `Pin_LED_Write`,
its only driver call being the read, and the LED pin level is what it was before. -/
theorem C3_other_byte_leaves_pin {U : Type} (drv : U → Nat × U) (s : State U)
    (hs : (UART_GetChar drv s).1 ≠ 115) (hS : (UART_GetChar drv s).1 ≠ 83)
    (hb : (UART_GetChar drv s).1 ≠ 98) (hB : (UART_GetChar drv s).1 ≠ 66) :
    (UART_GetChar drv s).1 < 256 ∧
    (Custom_ISR drv s).pin = s.pin ∧
    callsOf drv s = [Call.UART_GetChar (UART_GetChar drv s).1] ∧
    ∀ v, Call.Pin_LED_Write v ∉ callsOf drv s := by
  have hlt := UART_GetChar_lt drv s
  rw [UART_GetChar_fst] at hs hS hb hB hlt ⊢
  have hc : callsOf drv s = [Call.UART_GetChar ((drv s.uart).1 % 256)] := by
    rw [callsOf_eq, if_neg (by omega), if_neg (by omega)]
  refine ⟨hlt, ?_, hc, ?_⟩
  · rw [Custom_ISR_pin, stepPin, if_neg (by omega), if_neg (by omega)]
  · intro v hv
    rw [hc] at hv
    simp at hv

theorem C3_other_byte_leaves_pin_witness :
    (UART_GetChar fifoGetChar ⟨1, 115, [], []⟩).1 < 256 ∧
    (Custom_ISR fifoGetChar ⟨1, 115, [], []⟩).pin = 1 ∧
    callsOf fifoGetChar ⟨1, 115, [], []⟩ = [Call.UART_GetChar 0] ∧
    ∀ v, Call.Pin_LED_Write v ∉ callsOf fifoGetChar ⟨1, 115, [], []⟩ :=
  C3_other_byte_leaves_pin fifoGetChar ⟨1, 115, [], []⟩
    (by decide) (by decide) (by decide) (by decide)

/-- C4: for a command byte `c` among `'s'`, `'S'`, `'b'`, `'B'`, two invocations of
`Custom_ISR` in succession, the read returning `c` both times, give the pin level that
the first invocation alone gives. -/
theorem C4_same_command_twice {U : Type} (drv : U → Nat × U) (s : State U) (c : Nat)
    (hc : c = 115 ∨ c = 83 ∨ c = 98 ∨ c = 66)
    (h1 : (UART_GetChar drv s).1 = c)
    (h2 : (UART_GetChar drv (Custom_ISR drv s)).1 = c) :
    (Custom_ISR drv (Custom_ISR drv s)).pin = (Custom_ISR drv s).pin := by
  rw [UART_GetChar_fst] at h1 h2
  rw [Custom_ISR_pin drv (Custom_ISR drv s), h2, Custom_ISR_pin drv s, h1]
  rcases hc with rfl | rfl | rfl | rfl <;> simp [stepPin]

theorem C4_same_command_twice_witness :
    (Custom_ISR fifoGetChar (Custom_ISR fifoGetChar ⟨1, 0, [115, 115], []⟩)).pin =
      (Custom_ISR fifoGetChar ⟨1, 0, [115, 115], []⟩).pin :=
  C4_same_command_twice fifoGetChar ⟨1, 0, [115, 115], []⟩ 115
    (by decide) (by decide) (by decide)

/-- C6: two starting states with the same pin level, whatever their `ch_received`, in
which the read returns the same byte, have after one invocation of `Custom_ISR` the same
pin level and the same `ch_received`. -/
theorem C6_pin_independent_of_ch_received {U : Type} (drv : U → Nat × U) (s t : State U)
    (hpin : s.pin = t.pin) (hbyte : (UART_GetChar drv s).1 = (UART_GetChar drv t).1) :
    (Custom_ISR drv s).pin = (Custom_ISR drv t).pin ∧
    (Custom_ISR drv s).ch_received = (Custom_ISR drv t).ch_received := by
  rw [UART_GetChar_fst, UART_GetChar_fst] at hbyte
  rw [Custom_ISR_pin, Custom_ISR_pin, Custom_ISR_ch_received, Custom_ISR_ch_received,
    hpin, hbyte]
  exact ⟨rfl, rfl⟩

theorem C6_pin_independent_of_ch_received_witness :
    (Custom_ISR fifoGetChar ⟨1, 7, [120], []⟩).pin =
      (Custom_ISR fifoGetChar ⟨1, 200, [120], []⟩).pin ∧
    (Custom_ISR fifoGetChar ⟨1, 7, [120], []⟩).ch_received =
      (Custom_ISR fifoGetChar ⟨1, 200, [120], []⟩).ch_received :=
  C6_pin_independent_of_ch_received fifoGetChar ⟨1, 7, [120], []⟩ ⟨1, 200, [120], []⟩
    rfl (by decide)

/-- C8: after one invocation of `Custom_ISR`, for every byte read and every prior state,
`ch_received` is the byte that `UART_GetChar` returned in that invocation, and it is the
same whatever value `ch_received` held before. -/
theorem C8_ch_received_overwritten {U : Type} (drv : U → Nat × U) (s : State U) :
    (Custom_ISR drv s).ch_received = (UART_GetChar drv s).1 ∧
    ∀ old : Nat,
      (Custom_ISR drv { s with ch_received := old }).ch_received =
        (Custom_ISR drv s).ch_received := by
  refine ⟨?_, fun old => ?_⟩
  · rw [Custom_ISR_ch_received, UART_GetChar_fst]
  · rw [Custom_ISR_ch_received, Custom_ISR_ch_received]

/-- C10: every invocation of `Custom_ISR` makes exactly one call of `UART_GetChar`, its
first driver call, and leaves the UART as that one read leaves it; it makes one call of
`Pin_LED_Write` when the byte read is `'s'`, `'S'`, `'b'` or `'B'` and none otherwise; the
log of earlier calls is kept and at most two calls are added, so the handler returns
after a bounded number of driver calls. -/
theorem C10_driver_calls {U : Type} (drv : U → Nat × U) (s : State U) :
    ((callsOf drv s).filter isGetChar).length = 1 ∧
    (callsOf drv s).head? = some (Call.UART_GetChar (UART_GetChar drv s).1) ∧
    (Custom_ISR drv s).uart = (UART_GetChar drv s).2.uart ∧
    ((callsOf drv s).filter isPinWrite).length =
      (if recognized (UART_GetChar drv s).1 = true then 1 else 0) ∧
    (Custom_ISR drv s).calls = s.calls ++ callsOf drv s ∧
    (callsOf drv s).length ≤ 2 := by
  have hu : (Custom_ISR drv s).uart = (UART_GetChar drv s).2.uart := Custom_ISR_uart drv s
  have hl : (Custom_ISR drv s).calls = s.calls ++ callsOf drv s := by
    rw [callsOf_eq, Custom_ISR_calls]
  refine ⟨?_, ?_, hu, ?_, hl, ?_⟩
  · rw [callsOf_eq]
    split_ifs <;> simp [isGetChar]
  · rw [callsOf_eq, UART_GetChar_fst]
    rfl
  · rw [callsOf_eq, UART_GetChar_fst]
    by_cases h1 : (drv s.uart).1 % 256 = 115 ∨ (drv s.uart).1 % 256 = 83
    · rcases h1 with h | h <;> simp [h, recognized, isGetChar, isPinWrite]
    · by_cases h2 : (drv s.uart).1 % 256 = 98 ∨ (drv s.uart).1 % 256 = 66
      · rcases h2 with h | h <;> simp [h, recognized, isGetChar, isPinWrite]
      · have h3 : recognized ((drv s.uart).1 % 256) = false := by
          simp only [recognized, Bool.or_eq_false_iff, beq_eq_false_iff_ne]
          omega
        rw [if_neg h1, if_neg h2, h3]
        simp [isPinWrite]
  · rw [callsOf_eq]
    split_ifs <;> simp

/-! ## Sequences of invocations -/

/-- C5: from pin level 1, if three successive reads return `'s'` (115), `'x'` (120) and
`'B'` (66), the pin level is 0 after the first invocation of `Custom_ISR`, still 0 after
the second, and 1 after the third. -/
theorem C5_scenario_s_x_B {U : Type} (drv : U → Nat × U) (s : State U)
    (hp : s.pin = 1) (hr : received drv 3 s.uart = [115, 120, 66]) :
    (invoke drv 1 s).pin = 0 ∧ (invoke drv 2 s).pin = 0 ∧ (invoke drv 3 s).pin = 1 := by
  simp only [received, List.cons.injEq, and_true] at hr
  obtain ⟨h1, h2, h3⟩ := hr
  simp only [invoke, Custom_ISR_pin, Custom_ISR_uart, h1, h2, h3, hp]
  decide

theorem C5_scenario_s_x_B_witness :
    (invoke fifoGetChar 1 ⟨1, 0, [115, 120, 66], []⟩).pin = 0 ∧
    (invoke fifoGetChar 2 ⟨1, 0, [115, 120, 66], []⟩).pin = 0 ∧
    (invoke fifoGetChar 3 ⟨1, 0, [115, 120, 66], []⟩).pin = 1 :=
  C5_scenario_s_x_B fifoGetChar ⟨1, 0, [115, 120, 66], []⟩ rfl (by decide)

/-- C7: the pin levels 0 and 1 are closed under the handler: a pin level that is 0 or 1
before an invocation of `Custom_ISR` is 0 or 1 after it, whatever byte is read; every value
the handler hands to `Pin_LED_Write` is 0 or 1; and from a starting level 0 or 1, every
state reached by invocations of the handler, with any bytes arriving in between, has pin
level 0 or 1. -/
theorem C7_pin_levels_closed {U : Type} (drv : U → Nat × U) :
    (∀ s : State U, s.pin = 0 ∨ s.pin = 1 →
      (Custom_ISR drv s).pin = 0 ∨ (Custom_ISR drv s).pin = 1) ∧
    (∀ (s : State U) (v : Nat), Call.Pin_LED_Write v ∈ callsOf drv s → v = 0 ∨ v = 1) ∧
    (∀ s0 s : State U, s0.pin = 0 ∨ s0.pin = 1 → Reachable drv s0 s →
      s.pin = 0 ∨ s.pin = 1) := by
  have step : ∀ s : State U, s.pin = 0 ∨ s.pin = 1 →
      (Custom_ISR drv s).pin = 0 ∨ (Custom_ISR drv s).pin = 1 := by
    intro s hs
    rw [Custom_ISR_pin, stepPin]
    split_ifs
    · exact Or.inl rfl
    · exact Or.inr rfl
    · exact hs
  refine ⟨step, ?_, ?_⟩
  · intro s v hv
    rw [callsOf_eq] at hv
    split_ifs at hv <;> simp at hv <;> omega
  · intro s0 s h0 hr
    induction hr with
    | init => exact h0
    | isr s _ ih => exact step s ih
    | arrive s u _ ih => exact ih

theorem C7_pin_levels_closed_witness :
    (Custom_ISR fifoGetChar ⟨1, 0, [120], []⟩).pin = 0 ∨
      (Custom_ISR fifoGetChar ⟨1, 0, [120], []⟩).pin = 1 :=
  (C7_pin_levels_closed fifoGetChar).2.2 ⟨1, 0, [120], []⟩ _ (Or.inr rfl)
    (Reachable.isr _ Reachable.init)

/-- C9: after `n` successive invocations of `Custom_ISR` from pin level `p`, the pin level
is decided by the last command byte among the bytes received: it is `p` when none of them
is `'s'`, `'S'`, `'b'` or `'B'`, it is 0 when the last command byte is `'s'` or `'S'`, and 1
when it is `'b'` or `'B'`.  In particular a run that receives the same sequence with the
other bytes removed ends, from the same pin level, at the same pin level. -/
theorem C9_last_command_decides {U : Type} (drv : U → Nat × U) (s : State U) (n : Nat) :
    ((lastRecognized (received drv n s.uart) = none ∧ (invoke drv n s).pin = s.pin) ∨
     (∃ c, lastRecognized (received drv n s.uart) = some c ∧ (c = 115 ∨ c = 83) ∧
        (invoke drv n s).pin = 0) ∨
     (∃ c, lastRecognized (received drv n s.uart) = some c ∧ (c = 98 ∨ c = 66) ∧
        (invoke drv n s).pin = 1)) ∧
    ((∀ b ∈ received drv n s.uart, recognized b = false) → (invoke drv n s).pin = s.pin) ∧
    (∀ (V : Type) (drw : V → Nat × V) (t : State V) (m : Nat), t.pin = s.pin →
      received drw m t.uart = (received drv n s.uart).filter recognized →
      (invoke drw m t).pin = (invoke drv n s).pin) := by
  refine ⟨?_, ?_, ?_⟩
  · rw [invoke_pin]
    exact foldl_stepPin_cases _ _
  · intro h
    rw [invoke_pin]
    rcases foldl_stepPin_cases (received drv n s.uart) s.pin with h1 | ⟨c, h1, _⟩ | ⟨c, h1, _⟩
    · exact h1.2
    · rw [(lastRecognized_eq_none_iff _).2 h] at h1
      exact absurd h1 (by simp)
    · rw [(lastRecognized_eq_none_iff _).2 h] at h1
      exact absurd h1 (by simp)
  · intro V drw t m hp hr
    rw [invoke_pin, invoke_pin, hr, hp, foldl_stepPin_filter]

theorem C9_last_command_decides_witness :
    (invoke fifoGetChar 2 ⟨1, 0, [115, 66], []⟩).pin =
      (invoke fifoGetChar 5 ⟨1, 9, [115, 120, 0, 66, 7], []⟩).pin :=
  (C9_last_command_decides fifoGetChar ⟨1, 9, [115, 120, 0, 66, 7], []⟩ 5).2.2
    (List Nat) fifoGetChar ⟨1, 0, [115, 66], []⟩ 2 rfl (by decide)

end LedIsr
